import Mathlib

/-!
Shallow embedding of the `bf-interpreter` crate (file `src/lib.rs`): an
interpreter for an 8-symbol instruction language running over a growable
byte tape.  Pure functions below mirror the Rust source line by line; a
Rust panic (out-of-bounds indexing, or an arithmetic overflow abort) is
modelled by a dedicated `abort` result constructor, and fallible
operations return an explicit error constructor.  The two I/O
collaborators (a `BufRead` input and a `Write` output) are modelled as
event lists carried inside the interpreter state: the input is a list of
byte/fault events consumed from the front, and the output is the list of
bytes written so far together with a schedule of per-write collaborator
responses (`none` = the write succeeds, `some e` = the write fails with
the native I/O error `e`).
-/

/-- Embedding of `enum BfInstruction` (lib.rs lines 136-146). -/
inductive BfInstruction where
  | GoRight
  | GoLeft
  | Increment
  | Decrement
  | GetInput
  | PutOutput
  | LoopStart
  | LoopEnd
  deriving DecidableEq

/-- Embedding of `enum BfError` (lib.rs lines 148-160).  The wrapped
`std::io::Error` payload is modelled as an abstract numeric code.  Note
that the source enum has no `WriteError` variant: the `#[from]`
conversion routes every `std::io::Error`, from reads and writes alike,
into `ReadError`. -/
inductive BfError where
  | LoopNotStarted
  | LoopNotEnded
  | SeekOverLeftmost
  | LackOfInput
  | ReadError (e : Nat)
  deriving DecidableEq

/-- One event of the `BufRead` input collaborator: the next `fill_buf`
either exposes a byte, or reports a native I/O fault `e`. -/
inductive InEvent where
  | byte (b : Nat)
  | fault (e : Nat)
  deriving DecidableEq

/-- Loader state of the scan loop of `BfInterpreter::new` (lib.rs lines
22-24): the instruction sequence built so far, the stack of pending
loop-start positions (head = top of the Rust `Vec` stack), and the jump
table. -/
structure LoadSt where
  instructions : List BfInstruction
  loop_stack : List Nat
  jump_memo : List Nat
  deriving DecidableEq

/-- Result of running the scan loop: `abort` models a Rust panic (index
out of bounds), `err` an early `return Err(..)`. -/
inductive LoadRes where
  | abort
  | err (e : BfError)
  | ok (st : LoadSt)
  deriving DecidableEq

/-- Embedding of `Vec::resize(newLen, v)`: grow with copies of `v`, or
truncate. -/
def vecResize (l : List Nat) (newLen : Nat) (v : Nat) : List Nat :=
  if l.length < newLen then l ++ List.replicate (newLen - l.length) v else l.take newLen

/-- One iteration of the `for code in source.chars()` loop of
`BfInterpreter::new` (lib.rs lines 25-51).  The Rust `match` on the
character is written as the equivalent chain of equality tests.  In the
`]` arm the source resizes `jump_memo` to `ending + 1` only when
`jump_memo.len() < ending`, and then writes `jump_memo[beginning]` and
`jump_memo[ending]`; each write is guarded here by the bound check that
Rust indexing performs, with failure modelled as `abort` (panic). -/
def loadStep (st : LoadSt) (code : Char) : LoadRes :=
  if code = '>' then .ok { st with instructions := st.instructions ++ [.GoRight] }
  else if code = '<' then .ok { st with instructions := st.instructions ++ [.GoLeft] }
  else if code = '+' then .ok { st with instructions := st.instructions ++ [.Increment] }
  else if code = '-' then .ok { st with instructions := st.instructions ++ [.Decrement] }
  else if code = ',' then .ok { st with instructions := st.instructions ++ [.GetInput] }
  else if code = '.' then .ok { st with instructions := st.instructions ++ [.PutOutput] }
  else if code = '[' then
    .ok { instructions := st.instructions ++ [.LoopStart],
          loop_stack := st.instructions.length :: st.loop_stack,
          jump_memo := st.jump_memo }
  else if code = ']' then
    let ending := st.instructions.length
    match st.loop_stack with
    | [] => .err .LoopNotStarted
    | beginning :: rest =>
      let memo0 := if st.jump_memo.length < ending then vecResize st.jump_memo (ending + 1) 0
                   else st.jump_memo
      if beginning < memo0.length then
        let memo1 := memo0.set beginning ending
        if ending < memo1.length then
          .ok { instructions := st.instructions ++ [.LoopEnd],
                loop_stack := rest,
                jump_memo := memo1.set ending beginning }
        else .abort
      else .abort
  else .ok st

/-- The whole scan loop of `BfInterpreter::new`, folded over the source
characters. -/
def loadLoop (st : LoadSt) : List Char → LoadRes
  | [] => .ok st
  | c :: cs =>
    match loadStep st c with
    | .abort => .abort
    | .err e => .err e
    | .ok st' => loadLoop st' cs

/-- Embedding of `struct BfInterpreter` (lib.rs lines 5-14).  Tape cells
are `u8` values represented as naturals below 256.  The fields `input`,
`output` and `outFaults` model the two stream collaborators as described
in the header. -/
structure BfInterpreter where
  instructions : List BfInstruction
  instruction_pointer : Nat
  jump_memo : List Nat
  tape : List Nat
  tape_pointer : Nat
  input : List InEvent
  output : List Nat
  outFaults : List (Option Nat)
  deriving DecidableEq

/-- Result of `BfInterpreter::new`: `abort` models a panic during the
scan, `err` a `Err(BfError)` return. -/
inductive NewRes where
  | abort
  | err (e : BfError)
  | ok (m : BfInterpreter)
  deriving DecidableEq

/-- Embedding of `BfInterpreter::new` (lib.rs lines 21-64): run the scan
loop, then fail with `LoopNotEnded` if any loop is still open, else
build the machine with `tape = vec![0]` and both pointers 0. -/
def BfInterpreter.new (source : List Char) (input : List InEvent)
    (outFaults : List (Option Nat)) : NewRes :=
  match loadLoop { instructions := [], loop_stack := [], jump_memo := [] } source with
  | .abort => .abort
  | .err e => .err e
  | .ok st =>
    if st.loop_stack = [] then
      .ok { instructions := st.instructions, instruction_pointer := 0,
            jump_memo := st.jump_memo, tape := [0], tape_pointer := 0,
            input := input, output := [], outFaults := outFaults }
    else .err .LoopNotEnded

/-- Embedding of `BfInterpreter::is_end` (lib.rs lines 66-68). -/
def BfInterpreter.is_end (m : BfInterpreter) : Bool :=
  decide (m.instructions.length ≤ m.instruction_pointer)

/-- Embedding of `BfInterpreter::head_value` (lib.rs lines 70-72):
`self.tape[self.tape_pointer]`, where `none` models the out-of-bounds
panic. -/
def BfInterpreter.head_value (m : BfInterpreter) : Option Nat :=
  m.tape[m.tape_pointer]?

/-- Release-build semantics of the `u8` increment `*self.head_value_mut() += 1`
at lib.rs line 97: wrapping addition modulo 256. -/
def u8_wrapping_add1 (v : Nat) : Nat := (v + 1) % 256

/-- Debug-build semantics of the same `u8` increment at lib.rs line 97:
overflow checks are enabled, so incrementing 255 aborts the process
(`none`) instead of wrapping. -/
def u8_checked_add1 (v : Nat) : Option Nat := if v + 1 < 256 then some (v + 1) else none

/-- Release-build semantics of the `u8` decrement `*self.head_value_mut() -= 1`
at lib.rs line 100: wrapping subtraction modulo 256 (for `v < 256` this
is `v - 1` with wrap-around at 0). -/
def u8_wrapping_sub1 (v : Nat) : Nat := (v + 255) % 256

/-- Debug-build semantics of the same `u8` decrement at lib.rs line 100:
decrementing 0 aborts the process instead of wrapping to 255. -/
def u8_checked_sub1 (v : Nat) : Option Nat := if v = 0 then none else some (v - 1)

/-- Result of one `step` call: `ok m` is `Ok(())` with `m` the machine
after the call, `fail e m` is an early `return Err(e)` with `m` the
machine at the return point, and `abort` models a Rust panic. -/
inductive StepOut where
  | abort
  | fail (e : BfError) (m : BfInterpreter)
  | ok (m : BfInterpreter)
  deriving DecidableEq

/-- Embedding of `BfInterpreter::step` (lib.rs lines 82-126), using the
release-build (wrapping) semantics for Increment/Decrement.  Each arm
mirrors the Rust arm, and the trailing `self.instruction_pointer += 1`
of the source is folded into every non-error arm. -/
def BfInterpreter.step (m : BfInterpreter) : StepOut :=
  match m.instructions[m.instruction_pointer]? with
  | none => .abort
  | some .GoRight =>
    let tp := m.tape_pointer + 1
    if m.tape.length ≤ tp then
      .ok { m with tape_pointer := tp, tape := m.tape ++ [0],
                   instruction_pointer := m.instruction_pointer + 1 }
    else
      .ok { m with tape_pointer := tp, instruction_pointer := m.instruction_pointer + 1 }
  | some .GoLeft =>
    if m.tape_pointer = 0 then .fail .SeekOverLeftmost m
    else .ok { m with tape_pointer := m.tape_pointer - 1,
                      instruction_pointer := m.instruction_pointer + 1 }
  | some .Increment =>
    match m.head_value with
    | none => .abort
    | some v => .ok { m with tape := m.tape.set m.tape_pointer (u8_wrapping_add1 v),
                             instruction_pointer := m.instruction_pointer + 1 }
  | some .Decrement =>
    match m.head_value with
    | none => .abort
    | some v => .ok { m with tape := m.tape.set m.tape_pointer (u8_wrapping_sub1 v),
                             instruction_pointer := m.instruction_pointer + 1 }
  | some .GetInput =>
    match m.input with
    | [] => .fail .LackOfInput m
    | .fault e :: _ => .fail (.ReadError e) m
    | .byte b :: rest =>
      match m.head_value with
      | none => .abort
      | some _ => .ok { m with tape := m.tape.set m.tape_pointer b, input := rest,
                               instruction_pointer := m.instruction_pointer + 1 }
  | some .PutOutput =>
    match m.head_value with
    | none => .abort
    | some v =>
      match m.outFaults with
      | some e :: rest => .fail (.ReadError e) { m with outFaults := rest }
      | none :: rest => .ok { m with output := m.output ++ [v], outFaults := rest,
                                     instruction_pointer := m.instruction_pointer + 1 }
      | [] => .ok { m with output := m.output ++ [v],
                           instruction_pointer := m.instruction_pointer + 1 }
  | some .LoopStart =>
    match m.head_value with
    | none => .abort
    | some v =>
      if v = 0 then
        match m.jump_memo[m.instruction_pointer]? with
        | none => .abort
        | some j => .ok { m with instruction_pointer := j + 1 }
      else .ok { m with instruction_pointer := m.instruction_pointer + 1 }
  | some .LoopEnd =>
    match m.head_value with
    | none => .abort
    | some v =>
      if v = 0 then .ok { m with instruction_pointer := m.instruction_pointer + 1 }
      else
        match m.jump_memo[m.instruction_pointer]? with
        | none => .abort
        | some j => .ok { m with instruction_pointer := j + 1 }

/-- State invariant: the tape pointer is a valid index into the tape, so that
`head_value` is defined (the spec's "always a valid tape index when not
mid-step"). -/
def BfInterpreter.WF (m : BfInterpreter) : Prop := m.tape_pointer < m.tape.length

instance (m : BfInterpreter) : Decidable m.WF := by
  unfold BfInterpreter.WF
  infer_instance

/-- Modelled from the spec: the standard stack-discipline bracket matching that
section 4.1 describes ("matching uses standard stack discipline,
nearest-unmatched-enclosing-pair semantics of a stack"), run over an
instruction sequence starting at position `n`.  It returns the remaining stack
of unmatched `LoopStart` positions together with the accumulated matched
pairs, or `none` when a `LoopEnd` has no pending `LoopStart`. -/
def bracketScan : List BfInstruction → Nat → List Nat → List (Nat × Nat) →
    Option (List Nat × List (Nat × Nat))
  | [], _, stack, acc => some (stack, acc)
  | .LoopStart :: rest, n, stack, acc => bracketScan rest (n + 1) (n :: stack) acc
  | .LoopEnd :: rest, n, stack, acc =>
    match stack with
    | [] => none
    | s :: stack' => bracketScan rest (n + 1) stack' ((s, n) :: acc)
  | _ :: rest, n, stack, acc => bracketScan rest (n + 1) stack acc

/-- Modelled from the spec: the matched bracket pairs of a complete program,
obtained by running the stack-discipline scan from position 0 with an empty
stack and requiring every bracket to be matched. -/
def matchedPairs (prog : List BfInstruction) : Option (List (Nat × Nat)) :=
  match bracketScan prog 0 [] [] with
  | some ([], acc) => some acc
  | _ => none

/-- Number of opening brackets in a character list. -/
def openCount (cs : List Char) : Nat := cs.countP (· == '[')

/-- Number of closing brackets in a character list. -/
def closeCount (cs : List Char) : Nat := cs.countP (· == ']')

/-- Modelled from the spec: a source text is well formed (balanced) when no
prefix closes more loops than it opened and the totals agree. -/
def balancedSrc (cs : List Char) : Prop :=
  (∀ p ∈ cs.inits, closeCount p ≤ openCount p) ∧ openCount cs = closeCount cs

instance (cs : List Char) : Decidable (balancedSrc cs) := by
  unfold balancedSrc
  infer_instance

/-- Loader invariant tying a reachable scan state to the stack-discipline
matching specification: the scan of the instructions built so far leaves
exactly the loader's pending stack and some pair list `pairs`, the jump table
already stores both directions of every matched pair, every bracket
instruction is either still pending or matched, and the pending stack holds
strictly descending fresh `LoopStart` positions. -/
structure ScanInv (st : LoadSt) (pairs : List (Nat × Nat)) : Prop where
  scan_eq : bracketScan st.instructions 0 [] [] = some (st.loop_stack, pairs)
  pairs_lt : ∀ p ∈ pairs, p.1 < p.2 ∧ p.2 < st.instructions.length
  pairs_open : ∀ p ∈ pairs, st.instructions[p.1]? = some BfInstruction.LoopStart
  pairs_close : ∀ p ∈ pairs, st.instructions[p.2]? = some BfInstruction.LoopEnd
  memo_fst : ∀ p ∈ pairs, st.jump_memo[p.1]? = some p.2
  memo_snd : ∀ p ∈ pairs, st.jump_memo[p.2]? = some p.1
  open_cover : ∀ i, st.instructions[i]? = some BfInstruction.LoopStart →
    i ∈ st.loop_stack ∨ ∃ e, (i, e) ∈ pairs
  close_cover : ∀ i, st.instructions[i]? = some BfInstruction.LoopEnd →
    ∃ s, (s, i) ∈ pairs
  stack_lt : ∀ s ∈ st.loop_stack, s < st.instructions.length
  stack_open : ∀ s ∈ st.loop_stack, st.instructions[s]? = some BfInstruction.LoopStart
  stack_desc : st.loop_stack.Pairwise (· > ·)
  stack_fresh : ∀ s ∈ st.loop_stack, ∀ p ∈ pairs, s ≠ p.1

/-- Machine produced by loading the one-instruction source `+`. -/
def mPlus : BfInterpreter :=
  { instructions := [.Increment], instruction_pointer := 0, jump_memo := [],
    tape := [0], tape_pointer := 0, input := [], output := [], outFaults := [] }

/-- Machine `mPlus` after its single step. -/
def mPlusStepped : BfInterpreter :=
  { instructions := [.Increment], instruction_pointer := 1, jump_memo := [],
    tape := [1], tape_pointer := 0, input := [], output := [], outFaults := [] }

/-- Machine loaded from the source `[]`, about to run `LoopStart` over a zero
cell. -/
def mBracket : BfInterpreter :=
  { instructions := [.LoopStart, .LoopEnd], instruction_pointer := 0, jump_memo := [1, 0],
    tape := [0], tape_pointer := 0, input := [], output := [], outFaults := [] }

/-- Machine about to run `GoLeft` at the leftmost tape cell. -/
def mLeftEdge : BfInterpreter :=
  { instructions := [.GoLeft], instruction_pointer := 0, jump_memo := [],
    tape := [0], tape_pointer := 0, input := [], output := [], outFaults := [] }

/-- Machine about to run `PutOutput` against an output stream whose next write
reports the native I/O error 7. -/
def mOutFault : BfInterpreter :=
  { instructions := [.PutOutput], instruction_pointer := 0, jump_memo := [],
    tape := [5], tape_pointer := 0, input := [], output := [], outFaults := [some 7] }

/-- Machine `mOutFault` as returned from its failing step: the write event is
consumed, every machine field is untouched. -/
def mOutFaultAfter : BfInterpreter :=
  { instructions := [.PutOutput], instruction_pointer := 0, jump_memo := [],
    tape := [5], tape_pointer := 0, input := [], output := [], outFaults := [] }

/-- Machine about to run `PutOutput` against a healthy output stream. -/
def mOutOk : BfInterpreter :=
  { instructions := [.PutOutput], instruction_pointer := 0, jump_memo := [],
    tape := [5], tape_pointer := 0, input := [], output := [], outFaults := [] }

/-- Machine about to run `GetInput` with exactly one byte (9) available. -/
def mInByte : BfInterpreter :=
  { instructions := [.GetInput], instruction_pointer := 0, jump_memo := [],
    tape := [0], tape_pointer := 0, input := [InEvent.byte 9], output := [],
    outFaults := [] }

/-- Claim C1, code-bug evidence: the per-cell arithmetic of Increment and
Decrement (lib.rs lines 97 and 100) is build-configuration dependent.  Under
debug-build overflow checks, incrementing a cell holding 255 (and decrementing
a cell holding 0) aborts the process instead of wrapping, while the
release-build semantics wraps modulo 256 as the claim demands. -/
theorem C1_increment_not_unconditionally_wrapping :
    u8_checked_add1 255 = none ∧ u8_wrapping_add1 255 = 0 ∧
      u8_checked_sub1 0 = none ∧ u8_wrapping_sub1 0 = 255 := by
  decide

/-- Claim C2, code-bug evidence: the source `[[]]` is balanced, yet loading
aborts with an index-out-of-bounds panic: at the final `]`, `ending = 3` and
`jump_memo.len() = 3`, so the `jump_memo.len() < ending` guard skips the
resize and the write `jump_memo[ending]` indexes past the end. -/
theorem C2_balanced_source_load_aborts :
    balancedSrc ['[', '[', ']', ']'] ∧
      BfInterpreter.new ['[', '[', ']', ']'] [] [] = .abort := by
  decide

/-- Claim C6, code-bug evidence: on the simplest unmatched brackets the loader
reports the claimed errors, but the resize off-by-one makes both universal
statements false: `[[]]]` contains an unmatched `]` (its full prefix closes
more loops than it opens) yet loading aborts instead of failing with
`LoopNotStarted`, and `[[]][` leaves a `[` unclosed (no prefix over-closes and
the totals differ) yet loading aborts instead of failing with
`LoopNotEnded`. -/
theorem C6_unmatched_bracket_errors_not_universal :
    BfInterpreter.new [']'] [] [] = .err .LoopNotStarted ∧
      BfInterpreter.new ['['] [] [] = .err .LoopNotEnded ∧
      ¬ (∀ p ∈ (['[', '[', ']', ']', ']'] : List Char).inits,
          closeCount p ≤ openCount p) ∧
      BfInterpreter.new ['[', '[', ']', ']', ']'] [] [] = .abort ∧
      (∀ p ∈ (['[', '[', ']', ']', '['] : List Char).inits,
          closeCount p ≤ openCount p) ∧
      closeCount ['[', '[', ']', ']', '['] < openCount ['[', '[', ']', ']', '['] ∧
      BfInterpreter.new ['[', '[', ']', ']', '['] [] [] = .abort := by
  decide

/-- Helper: a failing step hands back a machine whose tape, tape pointer and
instruction pointer are those before the call, because every `Err` return in
the source happens before any state mutation. -/
theorem step_fail_state_eq (m : BfInterpreter) (e : BfError)
    (m' : BfInterpreter) (h : m.step = .fail e m') :
    m'.tape = m.tape ∧ m'.tape_pointer = m.tape_pointer ∧
      m'.instruction_pointer = m.instruction_pointer := by
  unfold BfInterpreter.step at h
  simp only [] at h
  repeat' split at h
  all_goals first
  | (injection h with he hm; subst hm; exact ⟨rfl, rfl, rfl⟩)
  | (injection h)

/-- Claim C10: whenever `step` returns an error, the machine it leaves behind
has the same tape contents, tape pointer and instruction pointer as before the
call: every `Err` return in the source happens before any state mutation. -/
theorem C10_failed_step_is_atomic (m : BfInterpreter) (e : BfError)
    (m' : BfInterpreter) (h : m.step = .fail e m') :
    m'.tape = m.tape ∧ m'.tape_pointer = m.tape_pointer ∧
      m'.instruction_pointer = m.instruction_pointer :=
  step_fail_state_eq m e m' h

/-- Witness for C10 at a concrete input: the failing `PutOutput` step hands
back the machine with tape, tape pointer and instruction pointer intact. -/
theorem C10_failed_step_is_atomic_witness :
    mOutFaultAfter.tape = mOutFault.tape ∧
      mOutFaultAfter.tape_pointer = mOutFault.tape_pointer ∧
      mOutFaultAfter.instruction_pointer = mOutFault.instruction_pointer :=
  C10_failed_step_is_atomic mOutFault (.ReadError 7) mOutFaultAfter (by decide)

/-- Claim C7: across any single step the tape never shrinks (on success its
length is monotone, on failure it is returned unchanged), and `GoLeft` at tape
pointer 0 always fails with `SeekOverLeftmost`, handing back the machine
unchanged. -/
theorem C7_tape_monotone_and_left_guard (m : BfInterpreter) :
    (∀ m', m.step = .ok m' → m.tape.length ≤ m'.tape.length) ∧
    (∀ e m', m.step = .fail e m' → m'.tape = m.tape) ∧
    (m.instructions[m.instruction_pointer]? = some .GoLeft → m.tape_pointer = 0 →
      m.step = .fail .SeekOverLeftmost m) := by
  refine ⟨?_, ?_, ?_⟩
  · intro m' h
    unfold BfInterpreter.step at h
    simp only [] at h
    repeat' split at h
    all_goals first
    | (injection h with hm; subst hm; simp [List.length_set])
    | (injection h)
  · intro e m' h
    exact (step_fail_state_eq m e m' h).1
  · intro hi htp
    unfold BfInterpreter.step
    simp [hi, htp]

/-- Witness for C7 at a concrete input: `GoLeft` at the leftmost cell fails
with `SeekOverLeftmost` and returns the machine unchanged. -/
theorem C7_tape_monotone_and_left_guard_witness :
    mLeftEdge.step = .fail .SeekOverLeftmost mLeftEdge :=
  (C7_tape_monotone_and_left_guard mLeftEdge).2.2 (by decide) (by decide)

/-- Counterexample for C3 as stated: at an output stream whose write reports
the native I/O error 7, the `PutOutput` step fails with `ReadError 7` — the
error enum of the source has no `WriteError` variant at all, so the claimed
`WriteError` cannot be produced. -/
theorem C3_write_fault_yields_ReadError :
    mOutFault.step = .fail (.ReadError 7) mOutFaultAfter := by
  decide

/-- Claim C3 as amended: `PutOutput` appends exactly the one byte held in the
current cell to the output stream per invocation, and on an underlying I/O
fault the step fails with `ReadError` wrapping the collaborator's native
error (the source reuses its `ReadError` variant for write faults; it has no
`WriteError`). -/
theorem C3_write_byte_semantics (m : BfInterpreter) (v : Nat)
    (hi : m.instructions[m.instruction_pointer]? = some .PutOutput)
    (hv : m.head_value = some v) :
    (m.outFaults = [] →
      m.step = .ok { m with output := m.output ++ [v],
                            instruction_pointer := m.instruction_pointer + 1 }) ∧
    (∀ rest, m.outFaults = none :: rest →
      m.step = .ok { m with output := m.output ++ [v], outFaults := rest,
                            instruction_pointer := m.instruction_pointer + 1 }) ∧
    (∀ e rest, m.outFaults = some e :: rest →
      m.step = .fail (.ReadError e) { m with outFaults := rest }) := by
  refine ⟨?_, ?_, ?_⟩
  · intro h
    unfold BfInterpreter.step
    simp [hi, hv, h]
  · intro rest h
    unfold BfInterpreter.step
    simp [hi, hv, h]
  · intro e rest h
    unfold BfInterpreter.step
    simp [hi, hv, h]

/-- Witness for C3 at a concrete input: a healthy write appends exactly one
byte (the cell value 5) to the output. -/
theorem C3_write_byte_semantics_witness :
    mOutOk.step = .ok { mOutOk with output := mOutOk.output ++ [5],
                                    instruction_pointer := mOutOk.instruction_pointer + 1 } :=
  (C3_write_byte_semantics mOutOk 5 (by decide) (by decide)).1 rfl

/-- Claim C4: a `LoopStart` over a zero cell and a `LoopEnd` over a non-zero
cell set the instruction pointer to the partner position `j` stored in the
jump table and then increment it, so the next instruction is the one just
past the partner; in the other two cases the pointer simply advances by one;
all four outcomes are `ok` (no failure). -/
theorem C4_loop_jump_semantics (m : BfInterpreter) (v j : Nat)
    (hv : m.head_value = some v)
    (hj : m.jump_memo[m.instruction_pointer]? = some j) :
    (m.instructions[m.instruction_pointer]? = some .LoopStart →
      (v = 0 → m.step = .ok { m with instruction_pointer := j + 1 }) ∧
      (v ≠ 0 → m.step = .ok { m with instruction_pointer := m.instruction_pointer + 1 })) ∧
    (m.instructions[m.instruction_pointer]? = some .LoopEnd →
      (v ≠ 0 → m.step = .ok { m with instruction_pointer := j + 1 }) ∧
      (v = 0 → m.step = .ok { m with instruction_pointer := m.instruction_pointer + 1 })) := by
  constructor
  · intro hi
    constructor
    · intro hz
      subst hz
      unfold BfInterpreter.step
      simp [hi, hv, hj]
    · intro hnz
      unfold BfInterpreter.step
      simp [hi, hv, hj, hnz]
  · intro hi
    constructor
    · intro hnz
      unfold BfInterpreter.step
      simp [hi, hv, hj, hnz]
    · intro hz
      subst hz
      unfold BfInterpreter.step
      simp [hi, hv, hj]

/-- Witness for C4 at a concrete input: on the loaded program `[]` with a zero
cell, the `LoopStart` step jumps to just past the matching `LoopEnd`. -/
theorem C4_loop_jump_semantics_witness :
    mBracket.step = .ok { mBracket with instruction_pointer := 1 + 1 } :=
  ((C4_loop_jump_semantics mBracket 0 1 (by decide) (by decide)).1 (by decide)).1 rfl

/-- Claim C9: `GetInput` reads exactly one byte from the input stream into the
current cell and consumes exactly that byte; it fails with `LackOfInput`
exactly when the stream is exhausted (a distinguishable end-of-stream
condition), and with `ReadError` wrapping the native error on an underlying
I/O fault. -/
theorem C9_read_byte_semantics (m : BfInterpreter) (v : Nat)
    (hi : m.instructions[m.instruction_pointer]? = some .GetInput)
    (hv : m.head_value = some v) :
    (m.input = [] → m.step = .fail .LackOfInput m) ∧
    (∀ e rest, m.input = .fault e :: rest → m.step = .fail (.ReadError e) m) ∧
    (∀ b rest, m.input = .byte b :: rest →
      m.step = .ok { m with tape := m.tape.set m.tape_pointer b, input := rest,
                            instruction_pointer := m.instruction_pointer + 1 }) ∧
    (m.step = .fail .LackOfInput m ↔ m.input = []) := by
  have h1 : m.input = [] → m.step = .fail .LackOfInput m := by
    intro h
    unfold BfInterpreter.step
    simp [hi, h]
  have h2 : ∀ e rest, m.input = .fault e :: rest → m.step = .fail (.ReadError e) m := by
    intro e rest h
    unfold BfInterpreter.step
    simp [hi, h]
  have h3 : ∀ b rest, m.input = .byte b :: rest →
      m.step = .ok { m with tape := m.tape.set m.tape_pointer b, input := rest,
                            instruction_pointer := m.instruction_pointer + 1 } := by
    intro b rest h
    unfold BfInterpreter.step
    simp [hi, h, hv]
  refine ⟨h1, h2, h3, ?_, h1⟩
  intro hstep
  cases hin : m.input with
  | nil => rfl
  | cons ev rest =>
    cases ev with
    | fault e =>
      rw [h2 e rest hin] at hstep
      exact absurd hstep (by simp)
    | byte b =>
      rw [h3 b rest hin] at hstep
      exact absurd hstep (by simp)

/-- Witness for C9 at a concrete input: reading the single available byte 9
stores it in the current cell, consumes it, and advances the instruction
pointer. -/
theorem C9_read_byte_semantics_witness :
    mInByte.step = .ok { mInByte with tape := mInByte.tape.set mInByte.tape_pointer 9,
                                      input := [],
                                      instruction_pointer := mInByte.instruction_pointer + 1 } :=
  (C9_read_byte_semantics mInByte 0 (by decide) (by decide)).2.2.1 9 [] rfl

/-- Claim C8: a freshly constructed machine has tape `[0]` and tape pointer 0,
and from any state whose tape pointer is a valid tape index, reading the
current cell is defined and both successful and failing steps keep the tape
pointer a valid index (`GoRight` appends a zero cell whenever the incremented
pointer reaches the tape length). -/
theorem C8_tape_pointer_always_valid (src : List Char) (inp : List InEvent)
    (ofl : List (Option Nat)) (m : BfInterpreter) :
    (BfInterpreter.new src inp ofl = .ok m → m.tape = [0] ∧ m.tape_pointer = 0) ∧
    (m.WF → (∃ v, m.head_value = some v) ∧
      (∀ m', m.step = .ok m' → m'.WF) ∧
      (∀ e m', m.step = .fail e m' → m'.WF)) := by
  constructor
  · intro h
    unfold BfInterpreter.new at h
    repeat' split at h
    all_goals first
    | (injection h with hm; subst hm; exact ⟨rfl, rfl⟩)
    | (injection h)
  · intro hWF
    have hWF' : m.tape_pointer < m.tape.length := hWF
    refine ⟨?_, ?_, ?_⟩
    · refine ⟨m.tape.get ⟨m.tape_pointer, hWF'⟩, ?_⟩
      unfold BfInterpreter.head_value
      simp [List.getElem?_eq_getElem hWF']
    · intro m' h
      unfold BfInterpreter.step at h
      simp only [] at h
      repeat' split at h
      all_goals first
      | (injection h with hm; subst hm;
         unfold BfInterpreter.WF
         simp only [List.length_set, List.length_append, List.length_cons,
           List.length_nil]
         omega)
      | (injection h)
    · intro e m' h
      have h0 := step_fail_state_eq m e m' h
      unfold BfInterpreter.WF
      rw [h0.1, h0.2.1]
      exact hWF'

/-- Witness for C8 at a concrete input: loading `+` yields tape `[0]` and tape
pointer 0, and stepping that machine keeps the tape pointer valid. -/
theorem C8_tape_pointer_always_valid_witness :
    mPlus.tape = [0] ∧ mPlus.tape_pointer = 0 ∧ mPlusStepped.WF := by
  have h := C8_tape_pointer_always_valid ['+'] [] [] mPlus
  refine ⟨(h.1 (by decide)).1, (h.1 (by decide)).2, ?_⟩
  exact (h.2 (by decide)).2.1 mPlusStepped (by decide)

/-- Helper: appending one element does not change earlier entries. -/
theorem concat_getElem?_lt {α : Type} (l : List α) (x : α) (i : Nat) (h : i < l.length) :
    (l ++ [x])[i]? = l[i]? :=
  List.getElem?_append_left h

/-- Helper: the appended element sits at the old length. -/
theorem concat_getElem?_self {α : Type} (l : List α) (x : α) :
    (l ++ [x])[l.length]? = some x :=
  List.getElem?_concat_length l x

/-- Helper: inversion of indexing into a one-element extension. -/
theorem concat_getElem?_inv {α : Type} (l : List α) (x y : α) (i : Nat)
    (h : (l ++ [x])[i]? = some y) :
    (i < l.length ∧ l[i]? = some y) ∨ (i = l.length ∧ y = x) := by
  rcases Nat.lt_trichotomy i l.length with hlt | heq | hgt
  · left
    exact ⟨hlt, by rwa [List.getElem?_append_left hlt] at h⟩
  · right
    subst heq
    rw [List.getElem?_concat_length] at h
    exact ⟨rfl, (Option.some.inj h).symm⟩
  · exfalso
    rw [List.getElem?_append_right (by omega)] at h
    rw [List.getElem?_eq_none_iff.mpr (by simp; omega)] at h
    exact Option.noConfusion h

/-- Helper: growing a vector with `vecResize` preserves existing entries. -/
theorem vecResize_getElem?_lt (l : List Nat) (n v i : Nat) (hn : l.length ≤ n)
    (hi : i < l.length) : (vecResize l n v)[i]? = l[i]? := by
  unfold vecResize
  split
  · exact List.getElem?_append_left hi
  · have hln : l.length = n := by omega
    rw [← hln, List.take_length]

/-- Helper: `vecResize` to a larger size has exactly that size. -/
theorem vecResize_length (l : List Nat) (n v : Nat) (hn : l.length ≤ n) :
    (vecResize l n v).length = n := by
  unfold vecResize
  split
  · simp
    omega
  · simp
    omega

/-- Helper: the stack-discipline scan splits over list append. -/
theorem bracketScan_append (l₁ l₂ : List BfInstruction) (n : Nat) (stack : List Nat)
    (acc : List (Nat × Nat)) :
    bracketScan (l₁ ++ l₂) n stack acc =
      match bracketScan l₁ n stack acc with
      | none => none
      | some (st, ac) => bracketScan l₂ (n + l₁.length) st ac := by
  induction l₁ generalizing n stack acc with
  | nil => simp [bracketScan]
  | cons i rest ih =>
    have harith : n + (rest.length + 1) = n + 1 + rest.length := by omega
    cases i
    case LoopEnd =>
      cases stack with
      | nil => simp [bracketScan]
      | cons s stack' =>
        simp only [List.cons_append, bracketScan, List.length_cons, harith]
        exact ih (n + 1) stack' ((s, n) :: acc)
    all_goals
      simp only [List.cons_append, bracketScan, List.length_cons, harith]
    case LoopStart => exact ih (n + 1) (n :: stack) acc
    all_goals exact ih (n + 1) stack acc

/-- Helper: the scan over a single non-bracket instruction is the identity on
stack and accumulator. -/
theorem bracketScan_single_plain (i : BfInstruction) (h1 : i ≠ .LoopStart)
    (h2 : i ≠ .LoopEnd) (n : Nat) (stack : List Nat) (acc : List (Nat × Nat)) :
    bracketScan [i] n stack acc = some (stack, acc) := by
  cases i <;> simp_all [bracketScan]

/-- Helper: the empty loader state satisfies the scan invariant with no
matched pairs. -/
theorem scanInv_init :
    ScanInv { instructions := [], loop_stack := [], jump_memo := [] } [] := by
  constructor <;> simp [bracketScan]

/-- Helper: appending a non-bracket instruction preserves the scan
invariant. -/
theorem scanInv_plain (st : LoadSt) (pairs : List (Nat × Nat)) (i : BfInstruction)
    (h1 : i ≠ .LoopStart) (h2 : i ≠ .LoopEnd) (inv : ScanInv st pairs) :
    ScanInv { st with instructions := st.instructions ++ [i] } pairs := by
  obtain ⟨sc, plt, po, pc, mf, ms, oc, cc, slt, so, sd, sf⟩ := inv
  refine ⟨?_, ?_, ?_, ?_, mf, ms, ?_, ?_, ?_, ?_, sd, sf⟩
  · show bracketScan (st.instructions ++ [i]) 0 [] [] = some (st.loop_stack, pairs)
    rw [bracketScan_append, sc]
    exact bracketScan_single_plain i h1 h2 (0 + st.instructions.length) st.loop_stack pairs
  · intro p hp
    have := plt p hp
    show p.1 < p.2 ∧ p.2 < (st.instructions ++ [i]).length
    simp only [List.length_append, List.length_cons, List.length_nil]
    omega
  · intro p hp
    show (st.instructions ++ [i])[p.1]? = some BfInstruction.LoopStart
    rw [concat_getElem?_lt _ _ _ (by have := plt p hp; omega)]
    exact po p hp
  · intro p hp
    show (st.instructions ++ [i])[p.2]? = some BfInstruction.LoopEnd
    rw [concat_getElem?_lt _ _ _ (plt p hp).2]
    exact pc p hp
  · intro j hj
    rcases concat_getElem?_inv _ _ _ _ hj with ⟨_, hs⟩ | ⟨_, hy⟩
    · exact oc j hs
    · exact absurd hy.symm h1
  · intro j hj
    rcases concat_getElem?_inv _ _ _ _ hj with ⟨_, hs⟩ | ⟨_, hy⟩
    · exact cc j hs
    · exact absurd hy.symm h2
  · intro s hs
    have := slt s hs
    show s < (st.instructions ++ [i]).length
    simp only [List.length_append, List.length_cons, List.length_nil]
    omega
  · intro s hs
    show (st.instructions ++ [i])[s]? = some BfInstruction.LoopStart
    rw [concat_getElem?_lt _ _ _ (slt s hs)]
    exact so s hs

/-- Helper: the `[` arm (push the current length, append `LoopStart`)
preserves the scan invariant. -/
theorem scanInv_push (st : LoadSt) (pairs : List (Nat × Nat)) (inv : ScanInv st pairs) :
    ScanInv { instructions := st.instructions ++ [.LoopStart],
              loop_stack := st.instructions.length :: st.loop_stack,
              jump_memo := st.jump_memo } pairs := by
  obtain ⟨sc, plt, po, pc, mf, ms, oc, cc, slt, so, sd, sf⟩ := inv
  refine ⟨?_, ?_, ?_, ?_, mf, ms, ?_, ?_, ?_, ?_, ?_, ?_⟩
  · show bracketScan (st.instructions ++ [.LoopStart]) 0 [] [] =
      some (st.instructions.length :: st.loop_stack, pairs)
    rw [bracketScan_append, sc]
    show bracketScan [.LoopStart] (0 + st.instructions.length) st.loop_stack pairs = _
    simp [bracketScan]
  · intro p hp
    have := plt p hp
    show p.1 < p.2 ∧ p.2 < (st.instructions ++ [BfInstruction.LoopStart]).length
    simp only [List.length_append, List.length_cons, List.length_nil]
    omega
  · intro p hp
    show (st.instructions ++ [BfInstruction.LoopStart])[p.1]? = some BfInstruction.LoopStart
    rw [concat_getElem?_lt _ _ _ (by have := plt p hp; omega)]
    exact po p hp
  · intro p hp
    show (st.instructions ++ [BfInstruction.LoopStart])[p.2]? = some BfInstruction.LoopEnd
    rw [concat_getElem?_lt _ _ _ (plt p hp).2]
    exact pc p hp
  · intro j hj
    rcases concat_getElem?_inv _ _ _ _ hj with ⟨_, hs⟩ | ⟨hEq, _⟩
    · rcases oc j hs with hmem | hpair
      · exact Or.inl (List.mem_cons_of_mem _ hmem)
      · exact Or.inr hpair
    · subst hEq
      exact Or.inl (List.mem_cons_self _ _)
  · intro j hj
    rcases concat_getElem?_inv _ _ _ _ hj with ⟨_, hs⟩ | ⟨_, hy⟩
    · exact cc j hs
    · exact absurd hy (by decide)
  · intro s hs
    show s < (st.instructions ++ [BfInstruction.LoopStart]).length
    simp only [List.length_append, List.length_cons, List.length_nil]
    rcases List.mem_cons.mp hs with hEq | hmem
    · omega
    · have := slt s hmem
      omega
  · intro s hs
    show (st.instructions ++ [BfInstruction.LoopStart])[s]? = some BfInstruction.LoopStart
    rcases List.mem_cons.mp hs with hEq | hmem
    · subst hEq
      exact concat_getElem?_self _ _
    · rw [concat_getElem?_lt _ _ _ (slt s hmem)]
      exact so s hmem
  · exact List.Pairwise.cons (fun b hb => slt b hb) sd
  · intro s hs p hp
    rcases List.mem_cons.mp hs with hEq | hmem
    · subst hEq
      have := plt p hp
      omega
    · exact sf s hmem p hp

/-- Helper: the successful `]` arm (pop the pending start `b`, record the pair
both ways in the jump table, append `LoopEnd`) preserves the scan invariant,
adding the new matched pair. -/
theorem scanInv_pop (st : LoadSt) (pairs : List (Nat × Nat)) (b : Nat) (rest : List Nat)
    (hstack : st.loop_stack = b :: rest) (inv : ScanInv st pairs)
    (memo0 : List Nat)
    (hmemo0 : memo0 = if st.jump_memo.length < st.instructions.length then
        vecResize st.jump_memo (st.instructions.length + 1) 0
      else st.jump_memo)
    (hb : b < memo0.length)
    (he : st.instructions.length < memo0.length) :
    ScanInv { instructions := st.instructions ++ [.LoopEnd],
              loop_stack := rest,
              jump_memo := (memo0.set b st.instructions.length).set
                st.instructions.length b }
      ((b, st.instructions.length) :: pairs) := by
  obtain ⟨sc, plt, po, pc, mf, ms, oc, cc, slt, so, sd, sf⟩ := inv
  have hbmem : b ∈ st.loop_stack := by
    rw [hstack]
    exact List.mem_cons_self b rest
  have hbn : b < st.instructions.length := slt b hbmem
  have hget : ∀ i, i < st.jump_memo.length → memo0[i]? = st.jump_memo[i]? := by
    intro i hi
    rw [hmemo0]
    split
    · exact vecResize_getElem?_lt st.jump_memo (st.instructions.length + 1) 0 i
        (by omega) hi
    · rfl
  have hmemN : ((memo0.set b st.instructions.length).set st.instructions.length b)[
      st.instructions.length]? = some b := by
    apply List.getElem?_set_self
    rw [List.length_set]
    exact he
  have hmemB : ((memo0.set b st.instructions.length).set st.instructions.length b)[b]? =
      some st.instructions.length := by
    rw [List.getElem?_set_ne (by omega : st.instructions.length ≠ b)]
    exact List.getElem?_set_self hb
  have hmemOld : ∀ t, t < st.instructions.length → t ≠ b →
      ((memo0.set b st.instructions.length).set st.instructions.length b)[t]? =
        memo0[t]? := by
    intro t ht htb
    rw [List.getElem?_set_ne (by omega : st.instructions.length ≠ t),
      List.getElem?_set_ne (fun hEq => htb (hEq.symm))]
  refine ⟨?_, ?_, ?_, ?_, ?_, ?_, ?_, ?_, ?_, ?_, ?_, ?_⟩
  · show bracketScan (st.instructions ++ [.LoopEnd]) 0 [] [] =
      some (rest, (b, st.instructions.length) :: pairs)
    rw [bracketScan_append, sc]
    show bracketScan [.LoopEnd] (0 + st.instructions.length) st.loop_stack pairs = _
    rw [hstack]
    simp [bracketScan]
  · intro p hp
    show p.1 < p.2 ∧ p.2 < (st.instructions ++ [BfInstruction.LoopEnd]).length
    simp only [List.length_append, List.length_cons, List.length_nil]
    rcases List.mem_cons.mp hp with hEq | hmem
    · subst hEq
      exact ⟨hbn, by omega⟩
    · have := plt p hmem
      omega
  · intro p hp
    show (st.instructions ++ [BfInstruction.LoopEnd])[p.1]? = some BfInstruction.LoopStart
    rcases List.mem_cons.mp hp with hEq | hmem
    · subst hEq
      rw [concat_getElem?_lt _ _ _ hbn]
      exact so b hbmem
    · rw [concat_getElem?_lt _ _ _ (by have := plt p hmem; omega)]
      exact po p hmem
  · intro p hp
    show (st.instructions ++ [BfInstruction.LoopEnd])[p.2]? = some BfInstruction.LoopEnd
    rcases List.mem_cons.mp hp with hEq | hmem
    · subst hEq
      exact concat_getElem?_self _ _
    · rw [concat_getElem?_lt _ _ _ (plt p hmem).2]
      exact pc p hmem
  · intro p hp
    rcases List.mem_cons.mp hp with hEq | hmem
    · subst hEq
      exact hmemB
    · have hpl := plt p hmem
      have hlt : p.1 < st.jump_memo.length := by
        rcases List.getElem?_eq_some.mp (mf p hmem) with ⟨hl, _⟩
        exact hl
      have hne : p.1 ≠ b := fun hEq => sf b hbmem p hmem hEq.symm
      show ((memo0.set b st.instructions.length).set st.instructions.length b)[p.1]? =
        some p.2
      rw [hmemOld p.1 (by omega) hne, hget p.1 hlt]
      exact mf p hmem
  · intro p hp
    rcases List.mem_cons.mp hp with hEq | hmem
    · subst hEq
      exact hmemN
    · have hpl := plt p hmem
      have hlt : p.2 < st.jump_memo.length := by
        rcases List.getElem?_eq_some.mp (ms p hmem) with ⟨hl, _⟩
        exact hl
      have hne : p.2 ≠ b := by
        intro hEq
        have h1 := so b hbmem
        have h2 := pc p hmem
        rw [hEq] at h2
        rw [h1] at h2
        exact BfInstruction.noConfusion (Option.some.inj h2)
      show ((memo0.set b st.instructions.length).set st.instructions.length b)[p.2]? =
        some p.1
      rw [hmemOld p.2 hpl.2 hne, hget p.2 hlt]
      exact ms p hmem
  · intro j hj
    rcases concat_getElem?_inv _ _ _ _ hj with ⟨_, hs⟩ | ⟨_, hy⟩
    · rcases oc j hs with hmem | hpair
      · rw [hstack] at hmem
        rcases List.mem_cons.mp hmem with hEq | hmem'
        · subst hEq
          exact Or.inr ⟨st.instructions.length, List.mem_cons_self _ _⟩
        · exact Or.inl hmem'
      · obtain ⟨e, hpe⟩ := hpair
        exact Or.inr ⟨e, List.mem_cons_of_mem _ hpe⟩
    · exact absurd hy (by decide)
  · intro j hj
    rcases concat_getElem?_inv _ _ _ _ hj with ⟨_, hs⟩ | ⟨hEq, _⟩
    · obtain ⟨s, hse⟩ := cc j hs
      exact ⟨s, List.mem_cons_of_mem _ hse⟩
    · subst hEq
      exact ⟨b, List.mem_cons_self _ _⟩
  · intro s hs
    have hmem : s ∈ st.loop_stack := by
      rw [hstack]
      exact List.mem_cons_of_mem b hs
    show s < (st.instructions ++ [BfInstruction.LoopEnd]).length
    have := slt s hmem
    simp only [List.length_append, List.length_cons, List.length_nil]
    omega
  · intro s hs
    have hmem : s ∈ st.loop_stack := by
      rw [hstack]
      exact List.mem_cons_of_mem b hs
    show (st.instructions ++ [BfInstruction.LoopEnd])[s]? = some BfInstruction.LoopStart
    rw [concat_getElem?_lt _ _ _ (slt s hmem)]
    exact so s hmem
  · rw [hstack] at sd
    exact (List.pairwise_cons.mp sd).2
  · intro s hs p hp
    rw [hstack] at sd
    rcases List.mem_cons.mp hp with hEq | hmem
    · subst hEq
      have hgt : b > s := (List.pairwise_cons.mp sd).1 s hs
      show s ≠ b
      omega
    · exact sf s (by rw [hstack]; exact List.mem_cons_of_mem b hs) p hmem

/-- Helper: one accepted scan-loop character preserves the invariant. -/
theorem scanInv_loadStep (st st' : LoadSt) (pairs : List (Nat × Nat)) (c : Char)
    (h : loadStep st c = .ok st') (inv : ScanInv st pairs) :
    ∃ pairs', ScanInv st' pairs' := by
  unfold loadStep at h
  by_cases h1 : c = '>'
  · rw [if_pos h1] at h
    injection h with hst
    subst hst
    exact ⟨pairs, scanInv_plain st pairs _ (by decide) (by decide) inv⟩
  rw [if_neg h1] at h
  by_cases h2 : c = '<'
  · rw [if_pos h2] at h
    injection h with hst
    subst hst
    exact ⟨pairs, scanInv_plain st pairs _ (by decide) (by decide) inv⟩
  rw [if_neg h2] at h
  by_cases h3 : c = '+'
  · rw [if_pos h3] at h
    injection h with hst
    subst hst
    exact ⟨pairs, scanInv_plain st pairs _ (by decide) (by decide) inv⟩
  rw [if_neg h3] at h
  by_cases h4 : c = '-'
  · rw [if_pos h4] at h
    injection h with hst
    subst hst
    exact ⟨pairs, scanInv_plain st pairs _ (by decide) (by decide) inv⟩
  rw [if_neg h4] at h
  by_cases h5 : c = ','
  · rw [if_pos h5] at h
    injection h with hst
    subst hst
    exact ⟨pairs, scanInv_plain st pairs _ (by decide) (by decide) inv⟩
  rw [if_neg h5] at h
  by_cases h6 : c = '.'
  · rw [if_pos h6] at h
    injection h with hst
    subst hst
    exact ⟨pairs, scanInv_plain st pairs _ (by decide) (by decide) inv⟩
  rw [if_neg h6] at h
  by_cases h7 : c = '['
  · rw [if_pos h7] at h
    injection h with hst
    subst hst
    exact ⟨pairs, scanInv_push st pairs inv⟩
  rw [if_neg h7] at h
  by_cases h8 : c = ']'
  · rw [if_pos h8] at h
    simp only [] at h
    cases hstack : st.loop_stack with
    | nil =>
      rw [hstack] at h
      exact absurd h (by simp)
    | cons b rest =>
      rw [hstack] at h
      simp only [] at h
      rcases Nat.lt_or_ge st.jump_memo.length st.instructions.length with hm | hm
      · rw [if_pos hm] at h
        split at h
        · split at h
          · injection h with hst
            subst hst
            rename_i hble hend
            exact ⟨_, scanInv_pop st pairs b rest hstack inv _ (if_pos hm).symm hble
              (by simpa [List.length_set] using hend)⟩
          · exact absurd h (by simp)
        · exact absurd h (by simp)
      · have hm' : ¬ st.jump_memo.length < st.instructions.length := by omega
        rw [if_neg hm'] at h
        split at h
        · split at h
          · injection h with hst
            subst hst
            rename_i hble hend
            exact ⟨_, scanInv_pop st pairs b rest hstack inv _ (if_neg hm').symm hble
              (by simpa [List.length_set] using hend)⟩
          · exact absurd h (by simp)
        · exact absurd h (by simp)
  · rw [if_neg h8] at h
    injection h with hst
    subst hst
    exact ⟨pairs, inv⟩

/-- Helper: the scan invariant holds at every successful end of the scan
loop. -/
theorem scanInv_loadLoop (cs : List Char) (st st' : LoadSt) (pairs : List (Nat × Nat))
    (inv : ScanInv st pairs) (h : loadLoop st cs = .ok st') :
    ∃ pairs', ScanInv st' pairs' := by
  induction cs generalizing st pairs with
  | nil =>
    unfold loadLoop at h
    injection h with hst
    subst hst
    exact ⟨pairs, inv⟩
  | cons c cs ih =>
    unfold loadLoop at h
    split at h
    · exact absurd h (by simp)
    · exact absurd h (by simp)
    · rename_i st1 heq
      obtain ⟨pairs1, inv1⟩ := scanInv_loadStep st st1 pairs c heq inv
      exact ih st1 pairs1 inv1 h

/-- Claim C5: for every source on which loading returns Ok, the matched
bracket pairs of the produced instruction sequence (stack-discipline
matching, all brackets matched) satisfy `table[s] = e` and `table[e] = s`
with `s < e` for every pair, and every `LoopStart` index and every `LoopEnd`
index belongs to a matched pair, so the entries are mutual inverses. -/
theorem C5_jump_table_invariant (src : List Char) (inp : List InEvent)
    (ofl : List (Option Nat)) (m : BfInterpreter)
    (h : BfInterpreter.new src inp ofl = .ok m) :
    ∃ pairs, matchedPairs m.instructions = some pairs ∧
      (∀ s e, (s, e) ∈ pairs →
        s < e ∧ m.jump_memo[s]? = some e ∧ m.jump_memo[e]? = some s) ∧
      (∀ i, m.instructions[i]? = some .LoopStart → ∃ e, (i, e) ∈ pairs) ∧
      (∀ i, m.instructions[i]? = some .LoopEnd → ∃ s, (s, i) ∈ pairs) := by
  unfold BfInterpreter.new at h
  split at h
  · exact absurd h (by simp)
  · exact absurd h (by simp)
  · rename_i st heq
    split at h
    · rename_i hempty
      injection h with hm
      subst hm
      obtain ⟨pairs, inv⟩ := scanInv_loadLoop src _ st [] scanInv_init heq
      obtain ⟨sc, plt, po, pc, mf, ms, oc, cc, slt, so, sd, sf⟩ := inv
      rw [hempty] at sc
      refine ⟨pairs, ?_, ?_, ?_, ?_⟩
      · show matchedPairs st.instructions = some pairs
        unfold matchedPairs
        rw [sc]
      · intro s e hp
        have h1 := plt (s, e) hp
        have h2 := mf (s, e) hp
        have h3 := ms (s, e) hp
        exact ⟨h1.1, h2, h3⟩
      · intro i hi
        rcases oc i hi with hmem | hpair
        · rw [hempty] at hmem
          exact absurd hmem (List.not_mem_nil i)
        · exact hpair
      · intro i hi
        exact cc i hi
    · exact absurd h (by simp)

/-- Witness for C5 at a concrete input: the machine loaded from `[]`
satisfies the jump-table invariant. -/
theorem C5_jump_table_invariant_witness :
    ∃ pairs, matchedPairs mBracket.instructions = some pairs ∧
      (∀ s e, (s, e) ∈ pairs →
        s < e ∧ mBracket.jump_memo[s]? = some e ∧ mBracket.jump_memo[e]? = some s) ∧
      (∀ i, mBracket.instructions[i]? = some .LoopStart → ∃ e, (i, e) ∈ pairs) ∧
      (∀ i, mBracket.instructions[i]? = some .LoopEnd → ∃ s, (s, i) ∈ pairs) :=
  C5_jump_table_invariant ['[', ']'] [] [] mBracket (by decide)
